import Mathlib

/-!
Verification of the planar-arm kinematics and collision-cost core:
ArmNavigation/arm_obstacle_navigation/planning/kinematics.py and
ArmNavigation/gpml2/utils/collision.py.

Numbers are embedded as real numbers.  External collaborators (the torch
pseudo-inverse routine, the theseus signed-distance-field query and the
theseus cost-function base class) are not part of the repository; they enter
as parameters or as definitions modelled from the design document.
Fallible operations (index errors, input-validation errors) return Option
or Except.
-/

noncomputable section

/-! ## Kinematics engine: forward kinematics -/

/-- Loop body of forward_kinematics: walks the joint angles keeping the
running angle sum and the previous joint position; reading past the end of
link_lengths is an index error, modelled as none.  The i-th step appends
the point prev + (cos(theta_sum) * link_lengths[i], sin(theta_sum) * link_lengths[i]). -/
def fkLoop (link_lengths : List ℝ) : List ℝ → ℕ → ℝ → ℝ × ℝ → Option (List (ℝ × ℝ))
  | [], _, _, _ => some []
  | theta :: rest, i, theta_sum, prev =>
    match link_lengths[i]? with
    | none => none
    | some li =>
      let ts := theta_sum + theta
      let nxt := (prev.1 + Real.cos ts * li, prev.2 + Real.sin ts * li)
      (fkLoop link_lengths rest (i + 1) ts nxt).map (fun l => nxt :: l)

/-- forward_kinematics: the list of joint positions, base at the origin,
one further point per joint angle. -/
def forward_kinematics (link_lengths joint_angles : List ℝ) : Option (List (ℝ × ℝ)) :=
  (fkLoop link_lengths joint_angles 0 0 (0, 0)).map (fun l => (0, 0) :: l)

/-- Running sum of the first i+1 joint angles: theta_sum after step i. -/
def sumTo (joint_angles : List ℝ) (i : ℕ) : ℝ := (joint_angles.take (i + 1)).sum

/-- Closed form of the forward-kinematics loop: the position reached after j
further links, starting at link index i, running angle sum ts and previous
position prev. -/
def fkFrom (link_lengths joint_angles : List ℝ) (i : ℕ) (ts : ℝ) (prev : ℝ × ℝ) : ℕ → ℝ × ℝ
  | 0 => prev
  | j + 1 =>
    let p := fkFrom link_lengths joint_angles i ts prev j
    let s := ts + sumTo joint_angles j
    (p.1 + Real.cos s * link_lengths.getD (i + j) 0,
     p.2 + Real.sin s * link_lengths.getD (i + j) 0)

/-- Position of joint j of the arm (j = 0 is the base at the origin). -/
def fkPoint (link_lengths joint_angles : List ℝ) (j : ℕ) : ℝ × ℝ :=
  fkFrom link_lengths joint_angles 0 0 (0, 0) j

/-- The full joint-pose list in closed form. -/
def fkP (link_lengths joint_angles : List ℝ) : List (ℝ × ℝ) :=
  (List.range (joint_angles.length + 1)).map (fkPoint link_lengths joint_angles)

/-! ## Kinematics engine: jacobian -/

/-- Two-argument arctangent (torch.atan2), as the argument of the complex
number with real part x and imaginary part y. -/
def atan2 (y x : ℝ) : ℝ := Complex.arg ⟨x, y⟩

/-- jacobian: one 2-vector column per joint.  Column i is built from the
vector r from the position of joint i to the end-effector position, through
the angle atan2(r.y, r.x) and the euclidean norm of r. -/
def jacobian (link_lengths joint_angles : List ℝ) : Option (List (ℝ × ℝ)) :=
  (forward_kinematics link_lengths joint_angles).map (fun joints_pose =>
    let ee_pose := joints_pose.getLastD (0, 0)
    joints_pose.dropLast.map (fun joint_pose =>
      let rx := ee_pose.1 - joint_pose.1
      let ry := ee_pose.2 - joint_pose.2
      let ang := atan2 ry rx
      let nrm := Real.sqrt (rx ^ 2 + ry ^ 2)
      (-Real.sin ang * nrm, Real.cos ang * nrm)))

/-- Closed form of column i of the jacobian. -/
def jacColF (link_lengths joint_angles : List ℝ) (i : ℕ) : ℝ × ℝ :=
  let ee := fkPoint link_lengths joint_angles joint_angles.length
  let jp := fkPoint link_lengths joint_angles i
  let rx := ee.1 - jp.1
  let ry := ee.2 - jp.2
  let ang := atan2 ry rx
  let nrm := Real.sqrt (rx ^ 2 + ry ^ 2)
  (-Real.sin ang * nrm, Real.cos ang * nrm)

/-- The full column list of the jacobian in closed form. -/
def jacCols (link_lengths joint_angles : List ℝ) : List (ℝ × ℝ) :=
  (List.range joint_angles.length).map (jacColF link_lengths joint_angles)

/-! ## Kinematics engine: inverse kinematics -/

/-- Euclidean norm of a 2-vector (torch.norm on a length-2 tensor). -/
def norm2 (v : ℝ × ℝ) : ℝ := Real.sqrt (v.1 ^ 2 + v.2 ^ 2)

/-- End-effector position: last row of the forward-kinematics result. -/
def eeOf (link_lengths joint_angles : List ℝ) : ℝ × ℝ :=
  ((forward_kinematics link_lengths joint_angles).getD []).getLastD (0, 0)

/-- Distance from the current end effector to the target. -/
def ikDist (link_lengths joint_angles : List ℝ) (target : ℝ × ℝ) : ℝ :=
  norm2 (target.1 - (eeOf link_lengths joint_angles).1,
         target.2 - (eeOf link_lengths joint_angles).2)

/-- One damped Gauss-Newton update of inverse_kinematics:
pseudo_inverse(jacobian) applied to (target - cur_pose), scaled by the fixed
damping 0.1, added to the current angles.  pinv stands for torch.pinverse,
an external routine mapping the 2 x N jacobian (as a column list) to its
N x 2 pseudo-inverse (as a row list). -/
def ikStep (pinv : List (ℝ × ℝ) → List (ℝ × ℝ)) (link_lengths joint_angles : List ℝ)
    (target : ℝ × ℝ) : List ℝ :=
  let cur_pose := eeOf link_lengths joint_angles
  let delta := (target.1 - cur_pose.1, target.2 - cur_pose.2)
  let jac := (jacobian link_lengths joint_angles).getD []
  let delta_angles := (pinv jac).map (fun row => (row.1 * delta.1 + row.2 * delta.2) * 0.1)
  List.zipWith (fun a b => a + b) joint_angles delta_angles

/-- The while loop of inverse_kinematics, by remaining iteration count: test
the 0.01 tolerance on the current angles, return them with converged = true
on success, otherwise take a damped Gauss-Newton step. -/
def ikLoop (pinv : List (ℝ × ℝ) → List (ℝ × ℝ)) (link_lengths : List ℝ) (target : ℝ × ℝ) :
    List ℝ → ℕ → List ℝ × Bool
  | joint_angles, 0 => (joint_angles, false)
  | joint_angles, m + 1 =>
    if ikDist link_lengths joint_angles target < 0.01 then (joint_angles, true)
    else ikLoop pinv link_lengths target (ikStep pinv link_lengths joint_angles target) m

/-- inverse_kinematics: damped Gauss-Newton iteration with at most
max_iteration steps; never fails, reports convergence through the flag. -/
def inverse_kinematics (pinv : List (ℝ × ℝ) → List (ℝ × ℝ))
    (link_lengths joint_angles : List ℝ) (target : ℝ × ℝ) (max_iteration : ℕ) :
    List ℝ × Bool :=
  ikLoop pinv link_lengths target joint_angles max_iteration

/-- The k-th Gauss-Newton iterate of the joint angles. -/
def ikIter (pinv : List (ℝ × ℝ) → List (ℝ × ℝ)) (link_lengths : List ℝ) (target : ℝ × ℝ)
    (joint_angles : List ℝ) : ℕ → List ℝ
  | 0 => joint_angles
  | k + 1 => ikStep pinv link_lengths (ikIter pinv link_lengths target joint_angles k) target

/-! ## Tensor-identity model of inverse_kinematics

The frame property of inverse_kinematics concerns torch tensor identity: the
function clones its joint_angles argument and every update builds a fresh
tensor, so the tensor passed by the caller is never written.  A store maps
tensor ids to values; clone and the addition allocate fresh ids. -/

structure TStore where
  vals : ℕ → List ℝ
  next : ℕ

/-- Allocate a fresh tensor holding value v. -/
def TStore.alloc (s : TStore) (v : List ℝ) : TStore × ℕ :=
  (⟨fun i => if i = s.next then v else s.vals i, s.next + 1⟩, s.next)

/-- The inverse_kinematics loop over the store: the current angles are read
from the store; each update allocates a fresh tensor for
cur_joint_angles + delta_angles and rebinds the local to it. -/
def ikLoopS (pinv : List (ℝ × ℝ) → List (ℝ × ℝ)) (link_lengths : List ℝ) (target : ℝ × ℝ) :
    ℕ → ℕ → TStore → TStore × ℕ × Bool
  | cur, 0, s => (s, cur, false)
  | cur, m + 1, s =>
    if ikDist link_lengths (s.vals cur) target < 0.01 then (s, cur, true)
    else
      let stp := s.alloc (ikStep pinv link_lengths (s.vals cur) target)
      ikLoopS pinv link_lengths target stp.2 m stp.1

/-- inverse_kinematics over the store: clone the argument tensor first
(joint_angles.clone()), then run the loop on the clone. -/
def inverse_kinematicsS (pinv : List (ℝ × ℝ) → List (ℝ × ℝ)) (link_lengths : List ℝ)
    (joint_angles_ref : ℕ) (target : ℝ × ℝ) (max_iteration : ℕ) (s : TStore) :
    TStore × ℕ × Bool :=
  let c := s.alloc (s.vals joint_angles_ref)
  ikLoopS pinv link_lengths target c.2 max_iteration c.1

/-! ## Trajectory resampler -/

/-- Number of sample points of a D x M trajectory (trajectory.size(1)). -/
def size1 (trajectory : List (List ℝ)) : ℕ := (trajectory.headD []).length

/-- np.linspace(0, 1, n): n uniform parameters from 0 to 1.  For n = 1 the
single sample is 0; division by zero in Lean returns 0, matching that case. -/
def linspace01 (n : ℕ) : List ℝ :=
  (List.range n).map (fun (i : ℕ) => (i : ℝ) / ((n : ℝ) - 1))

/-- Number of elements strictly below t (np.searchsorted, side left, on a
sorted array). -/
def searchsorted (xs : List ℝ) (t : ℝ) : ℕ :=
  (xs.filter (fun x => x < t)).length

/-- Linear interpolation of the samples ys placed at parameters xs,
evaluated at t: scipy interp1d with kind linear.  The segment index is the
insertion point clipped to [1, length-1]; the value is the two-point linear
interpolant on that segment. -/
def interpAt (xs ys : List ℝ) (t : ℝ) : ℝ :=
  let idx := min (max (searchsorted xs t) 1) (xs.length - 1)
  let x_lo := xs.getD (idx - 1) 0
  let x_hi := xs.getD idx 0
  let y_lo := ys.getD (idx - 1) 0
  let y_hi := ys.getD idx 0
  (y_hi - y_lo) / (x_hi - x_lo) * (t - x_lo) + y_lo

/-- resample_trajectory: reject trajectories with at most one sample, else
re-parametrize each dimension by linear interpolation onto num_points
uniform parameters. -/
def resample_trajectory (trajectory : List (List ℝ)) (num_points : ℕ) :
    Except String (List (List ℝ)) :=
  if size1 trajectory ≤ 1 then
    Except.error "Trajectory must have more than one point."
  else
    Except.ok (trajectory.map (fun row =>
      (linspace01 num_points).map (fun t => interpAt (linspace01 (size1 trajectory)) row t)))

/-! ## Collision cost evaluator -/

/-- The defining parameters of the external signed-distance field: origin,
raw field data and cell size.  The theseus container re-derives all of its
internal query state from exactly these three inputs, so the container is
modelled by the triple itself; the query function over the triple is an
external collaborator and enters as a parameter. -/
structure SDFParams where
  origin : List (ℝ × ℝ)
  data : List (List ℝ)
  cell_size : ℝ

/-- The state of a CollisionArm cost function: the optimization variable
pose (batch of joint-angle vectors), the registered auxiliary variables, and
the derived SDF container. -/
structure CollisionArm where
  pose : List (List ℝ)
  link_lengths : List (List ℝ)
  sdf_origin : List (ℝ × ℝ)
  sdf_data : List (List ℝ)
  sdf_cell_size : ℝ
  cost_eps : List ℝ
  sdf : SDFParams

/-- The CollisionArm constructor: store the variables and build the SDF
container from sdf_origin, sdf_cell_size and sdf_data. -/
def CollisionArm.init (pose link_lengths : List (List ℝ)) (sdf_origin : List (ℝ × ℝ))
    (sdf_data : List (List ℝ)) (sdf_cell_size : ℝ) (cost_eps : List ℝ) : CollisionArm :=
  { pose := pose, link_lengths := link_lengths, sdf_origin := sdf_origin,
    sdf_data := sdf_data, sdf_cell_size := sdf_cell_size, cost_eps := cost_eps,
    sdf := ⟨sdf_origin, sdf_data, sdf_cell_size⟩ }

/-- The batch loop of _compute_distances_and_jacobians, from instance i, b
instances remaining: per instance, the end-effector position (last row of
forward_kinematics) and the 2 x N pose jacobian. -/
def cdjLoop (c : CollisionArm) : ℕ → ℕ → Option (List ((ℝ × ℝ) × List (ℝ × ℝ)))
  | _, 0 => some []
  | i, b + 1 => do
    let li ← c.link_lengths[i]?
    let th ← c.pose[i]?
    let joints ← forward_kinematics li th
    let cols ← jacobian li th
    let rest ← cdjLoop c (i + 1) b
    some ((joints.getLastD (0, 0), cols) :: rest)

/-- _compute_distances_and_jacobians: run the batch loop over
batch_size = sdf_origin.length instances, query the SDF container at the
end-effector positions, and chain the SDF jacobian with the pose jacobian.
sdfQ is the external signed_distance query: for a point it returns the
distance and the spatial gradient row. -/
def compute_distances_and_jacobians (sdfQ : SDFParams → ℝ × ℝ → ℝ × (ℝ × ℝ))
    (c : CollisionArm) : Option (List (ℝ × List ℝ)) :=
  (cdjLoop c 0 c.sdf_origin.length).map (fun l => l.map (fun pj =>
    let dj := sdfQ c.sdf pj.1
    (dj.1, pj.2.map (fun col => dj.2.1 * col.1 + dj.2.2 * col.2))))

/-- _error_from_distances: (cost_eps - distances).clamp(min = 0). -/
def error_from_distances (cost_eps distances : List ℝ) : List ℝ :=
  List.zipWith (fun e d => max (e - d) 0) cost_eps distances

/-- CollisionArm.error: the clamped one-sided collision cost per instance. -/
def CollisionArm.error (sdfQ : SDFParams → ℝ × ℝ → ℝ × (ℝ × ℝ)) (c : CollisionArm) :
    Option (List ℝ) :=
  (compute_distances_and_jacobians sdfQ c).map (fun l =>
    error_from_distances c.cost_eps (l.map Prod.fst))

/-- CollisionArm.jacobians: zero the jacobian rows of the faraway instances
(distance strictly above cost_eps), negate every row, and return the rows
together with the error vector. -/
def CollisionArm.jacobians (sdfQ : SDFParams → ℝ × ℝ → ℝ × (ℝ × ℝ)) (c : CollisionArm) :
    Option (List (List ℝ) × List ℝ) :=
  (compute_distances_and_jacobians sdfQ c).map (fun l =>
    let distances := l.map Prod.fst
    let err := error_from_distances c.cost_eps distances
    let zeroed := List.zipWith
      (fun e dr => if e < (dr : ℝ × List ℝ).1 then dr.2.map (fun _ => (0 : ℝ)) else dr.2)
      c.cost_eps l
    (zeroed.map (fun row => row.map (fun x => -x)), err))

/-- The auxiliary variables registered by the constructor, in registration
order: link_lengths, sdf_origin, sdf_data, sdf_cell_size, cost_eps. -/
inductive AuxVar where
  | linkLengths : List (List ℝ) → AuxVar
  | sdfOrigin : List (ℝ × ℝ) → AuxVar
  | sdfData : List (List ℝ) → AuxVar
  | sdfCellSize : ℝ → AuxVar
  | costEps : List ℝ → AuxVar

/-- Modelled from the spec: the external cost-function base class
(theseus CostFunction.set_aux_var_at) supports in-place replacement of the
auxiliary variable registered at the given index with the supplied value;
it knows nothing about the derived SDF container, which it leaves as is. -/
def base_set_aux_var_at (c : CollisionArm) (index : ℕ) (v : AuxVar) : CollisionArm :=
  match index, v with
  | 0, AuxVar.linkLengths x => { c with link_lengths := x }
  | 1, AuxVar.sdfOrigin x => { c with sdf_origin := x }
  | 2, AuxVar.sdfData x => { c with sdf_data := x }
  | 3, AuxVar.sdfCellSize x => { c with sdf_cell_size := x }
  | 4, AuxVar.costEps x => { c with cost_eps := x }
  | _, _ => c

/-- CollisionArm.set_aux_var_at override: delegate to the base class, then
refresh the SDF container from the current origin, data and cell size
(self.sdf.update_data). -/
def CollisionArm.set_aux_var_at (c : CollisionArm) (index : ℕ) (v : AuxVar) : CollisionArm :=
  let c2 := base_set_aux_var_at c index v
  { c2 with sdf := ⟨c2.sdf_origin, c2.sdf_data, c2.sdf_cell_size⟩ }

/-- Validity of batch instance k: the slices exist and the joint-angle
vector is no longer than the link-length vector. -/
def instOK (c : CollisionArm) (k : ℕ) : Prop :=
  ∃ li th, c.link_lengths[k]? = some li ∧ c.pose[k]? = some th ∧ th.length ≤ li.length

/-- Closed form of one batch instance of the loop: end-effector position and
jacobian columns of instance k. -/
def instDat (c : CollisionArm) (k : ℕ) : (ℝ × ℝ) × List (ℝ × ℝ) :=
  let li := c.link_lengths.getD k []
  let th := c.pose.getD k []
  (fkPoint li th th.length, jacCols li th)

/-- SDF distance at the end effector of instance k. -/
def instDist (sdfQ : SDFParams → ℝ × ℝ → ℝ × (ℝ × ℝ)) (c : CollisionArm) (k : ℕ) : ℝ :=
  (sdfQ c.sdf (instDat c k).1).1

/-- Chain-rule cost-jacobian row of instance k: the SDF gradient row times
the 2 x N pose jacobian of instance k. -/
def instRow (sdfQ : SDFParams → ℝ × ℝ → ℝ × (ℝ × ℝ)) (c : CollisionArm) (k : ℕ) : List ℝ :=
  let dj := sdfQ c.sdf (instDat c k).1
  (instDat c k).2.map (fun col => dj.2.1 * col.1 + dj.2.2 * col.2)

/-! ## Helper lemmas about lists -/

theorem getElem?_of_lt {α : Type} (l : List α) (i : ℕ) (d : α) (h : i < l.length) :
    l[i]? = some (l.getD i d) := by
  induction l generalizing i with
  | nil => simp at h
  | cons a t ih =>
    cases i with
    | zero => simp [List.getD]
    | succ j =>
      simp only [List.length_cons, Nat.succ_lt_succ_iff] at h
      simpa [List.getD] using ih j h

theorem getD_of_getElem?_some {α : Type} {l : List α} {i : ℕ} {a : α} (d : α)
    (h : l[i]? = some a) : l.getD i d = a := by
  have hlt : i < l.length := by
    by_contra hge
    rw [List.getElem?_eq_none (by omega)] at h
    exact Option.noConfusion h
  have := getElem?_of_lt l i d hlt
  rw [this] at h
  exact (Option.some.injEq _ _).mp h

theorem getD_map_of_lt {α β : Type} (f : α → β) (l : List α) (i : ℕ) (d : β) (d0 : α)
    (h : i < l.length) : (l.map f).getD i d = f (l.getD i d0) := by
  induction l generalizing i with
  | nil => simp at h
  | cons a t ih =>
    cases i with
    | zero => simp [List.getD]
    | succ j =>
      simp only [List.length_cons, Nat.succ_lt_succ_iff] at h
      simpa [List.getD] using ih j h

theorem getD_range_map {α : Type} (f : ℕ → α) (n i : ℕ) (d : α) (h : i < n) :
    ((List.range n).map f).getD i d = f i := by
  rw [getD_map_of_lt f (List.range n) i d 0 (by simpa using h)]
  congr 1
  have := getElem?_of_lt (List.range n) i 0 (by simpa using h)
  rw [List.getElem?_range h] at this
  exact ((Option.some.injEq _ _).mp this).symm

theorem getElem?_zipWith_of_lt {α β γ : Type} (f : α → β → γ) (l₁ : List α) (l₂ : List β)
    (i : ℕ) (d₁ : α) (d₂ : β) (h₁ : i < l₁.length) (h₂ : i < l₂.length) :
    (List.zipWith f l₁ l₂)[i]? = some (f (l₁.getD i d₁) (l₂.getD i d₂)) := by
  induction l₁ generalizing l₂ i with
  | nil => simp at h₁
  | cons a t ih =>
    cases l₂ with
    | nil => simp at h₂
    | cons b t2 =>
      cases i with
      | zero => simp [List.getD]
      | succ j =>
        simp only [List.length_cons, Nat.succ_lt_succ_iff] at h₁ h₂
        simpa [List.getD] using ih t2 j h₁ h₂

theorem map_const_eq_replicate {α β : Type} (l : List α) (b : β) :
    l.map (fun _ => b) = List.replicate l.length b := by
  induction l with
  | nil => rfl
  | cons a t ih => simp [List.replicate, ih]

/-! ## Characterization of forward_kinematics -/

theorem sumTo_cons (theta : ℝ) (rest : List ℝ) (j : ℕ) :
    sumTo (theta :: rest) (j + 1) = theta + sumTo rest j := by
  simp [sumTo]

theorem sumTo_cons_zero (theta : ℝ) (rest : List ℝ) :
    sumTo (theta :: rest) 0 = theta := by
  simp [sumTo]

theorem fkFrom_cons (link_lengths rest : List ℝ) (theta : ℝ) (i : ℕ) (ts : ℝ) (prev : ℝ × ℝ) :
    ∀ j : ℕ, fkFrom link_lengths (theta :: rest) i ts prev (j + 1) =
      fkFrom link_lengths rest (i + 1) (ts + theta)
        (fkFrom link_lengths (theta :: rest) i ts prev 1) j := by
  intro j
  induction j with
  | zero => rfl
  | succ k ih =>
    have harith : ts + sumTo (theta :: rest) (k + 1) = ts + theta + sumTo rest k := by
      rw [sumTo_cons]; ring
    have hidx : i + (k + 1) = i + 1 + k := by omega
    show ((fkFrom link_lengths (theta :: rest) i ts prev (k + 1)).1
            + Real.cos (ts + sumTo (theta :: rest) (k + 1)) * link_lengths.getD (i + (k + 1)) 0,
          (fkFrom link_lengths (theta :: rest) i ts prev (k + 1)).2
            + Real.sin (ts + sumTo (theta :: rest) (k + 1)) * link_lengths.getD (i + (k + 1)) 0)
        = fkFrom link_lengths rest (i + 1) (ts + theta)
            (fkFrom link_lengths (theta :: rest) i ts prev 1) (k + 1)
    rw [ih, harith, hidx]
    rfl

theorem fkLoop_eq (link_lengths : List ℝ) :
    ∀ (thetas : List ℝ) (i : ℕ) (ts : ℝ) (prev : ℝ × ℝ),
      i + thetas.length ≤ link_lengths.length →
      fkLoop link_lengths thetas i ts prev =
        some ((List.range thetas.length).map
          (fun j => fkFrom link_lengths thetas i ts prev (j + 1))) := by
  intro thetas
  induction thetas with
  | nil => intro i ts prev _; simp [fkLoop]
  | cons theta rest ih =>
    intro i ts prev h
    have hi : i < link_lengths.length := by
      simp only [List.length_cons] at h; omega
    have hone : fkFrom link_lengths (theta :: rest) i ts prev 1 =
        (prev.1 + Real.cos (ts + theta) * link_lengths.getD i 0,
         prev.2 + Real.sin (ts + theta) * link_lengths.getD i 0) := by
      show fkFrom link_lengths (theta :: rest) i ts prev (0 + 1) = _
      simp [fkFrom, sumTo_cons_zero]
    rw [fkLoop, getElem?_of_lt link_lengths i 0 hi]
    simp only
    rw [ih (i + 1) (ts + theta)
      (prev.1 + Real.cos (ts + theta) * link_lengths.getD i 0,
       prev.2 + Real.sin (ts + theta) * link_lengths.getD i 0)
      (by simp only [List.length_cons] at h; omega)]
    simp only [Option.map, List.length_cons, List.range_succ_eq_map,
      List.map_cons, List.map_map]
    congr 1
    congr 1
    · exact hone.symm
    · apply List.map_congr_left
      intro j _
      show fkFrom link_lengths rest (i + 1) (ts + theta) _ (j + 1) =
        fkFrom link_lengths (theta :: rest) i ts prev (j + 1 + 1)
      rw [fkFrom_cons link_lengths rest theta i ts prev (j + 1), hone]

theorem forward_kinematics_eq_of_le {link_lengths joint_angles : List ℝ}
    (h : joint_angles.length ≤ link_lengths.length) :
    forward_kinematics link_lengths joint_angles = some (fkP link_lengths joint_angles) := by
  rw [forward_kinematics, fkLoop_eq link_lengths joint_angles 0 0 (0, 0) (by omega)]
  simp only [Option.map, fkP, List.range_succ_eq_map, List.map_cons, List.map_map]
  rfl

theorem fkLoop_none (link_lengths : List ℝ) :
    ∀ (thetas : List ℝ) (i : ℕ) (ts : ℝ) (prev : ℝ × ℝ),
      link_lengths.length < i + thetas.length → i ≤ link_lengths.length →
      fkLoop link_lengths thetas i ts prev = none := by
  intro thetas
  induction thetas with
  | nil => intro i ts prev h hi; simp at h; omega
  | cons theta rest ih =>
    intro i ts prev h hi
    rcases Nat.lt_or_ge i link_lengths.length with hlt | hge
    · rw [fkLoop, getElem?_of_lt link_lengths i 0 hlt]
      simp only
      rw [ih (i + 1) _ _ (by simp only [List.length_cons] at h; omega) (by omega)]
      rfl
    · have : i = link_lengths.length := by omega
      rw [fkLoop, List.getElem?_eq_none (by omega)]

theorem forward_kinematics_none_of_lt {link_lengths joint_angles : List ℝ}
    (h : link_lengths.length < joint_angles.length) :
    forward_kinematics link_lengths joint_angles = none := by
  rw [forward_kinematics, fkLoop_none link_lengths joint_angles 0 0 (0, 0) (by omega) (by omega)]
  rfl

end


theorem fkP_getLastD (link_lengths joint_angles : List ℝ) :
    (fkP link_lengths joint_angles).getLastD (0, 0) =
      fkPoint link_lengths joint_angles joint_angles.length := by
  rw [fkP, List.range_succ, List.map_append]
  exact List.getLastD_concat _ _ _

theorem fkP_dropLast (link_lengths joint_angles : List ℝ) :
    (fkP link_lengths joint_angles).dropLast =
      (List.range joint_angles.length).map (fkPoint link_lengths joint_angles) := by
  rw [fkP, List.range_succ, List.map_append]
  exact List.dropLast_concat

theorem jacobian_eq_of_le {link_lengths joint_angles : List ℝ}
    (h : joint_angles.length ≤ link_lengths.length) :
    jacobian link_lengths joint_angles = some (jacCols link_lengths joint_angles) := by
  rw [jacobian, forward_kinematics_eq_of_le h]
  simp only [Option.map, fkP_getLastD, fkP_dropLast, List.map_map]
  rfl

/-! ## The planar-manipulator identity behind the jacobian columns -/

theorem cos_atan2_mul_sqrt (y x : ℝ) :
    Real.cos (atan2 y x) * Real.sqrt (x ^ 2 + y ^ 2) = x := by
  by_cases h : (⟨x, y⟩ : ℂ) = 0
  · have hx : x = 0 := by
      have := congrArg Complex.re h; simpa using this
    have hy : y = 0 := by
      have := congrArg Complex.im h; simpa using this
    subst hx; subst hy
    simp [atan2]
  · have habs : Complex.abs ⟨x, y⟩ = Real.sqrt (x ^ 2 + y ^ 2) := by
      rw [Complex.abs_apply, Complex.normSq_mk]
      congr 1
      ring

    have hne : Real.sqrt (x ^ 2 + y ^ 2) ≠ 0 := by
      rw [← habs]
      simpa using h
    rw [atan2, Complex.cos_arg h, habs]
    field_simp

theorem sin_atan2_mul_sqrt (y x : ℝ) :
    Real.sin (atan2 y x) * Real.sqrt (x ^ 2 + y ^ 2) = y := by
  by_cases h : (⟨x, y⟩ : ℂ) = 0
  · have hx : x = 0 := by
      have := congrArg Complex.re h; simpa using this
    have hy : y = 0 := by
      have := congrArg Complex.im h; simpa using this
    subst hx; subst hy
    simp [atan2]
  · have habs : Complex.abs ⟨x, y⟩ = Real.sqrt (x ^ 2 + y ^ 2) := by
      rw [Complex.abs_apply, Complex.normSq_mk]
      congr 1
      ring
    have hne : Real.sqrt (x ^ 2 + y ^ 2) ≠ 0 := by
      rw [← habs]
      simpa using h
    rw [atan2, Complex.sin_arg, habs]
    field_simp

theorem jacColF_eq_perp (link_lengths joint_angles : List ℝ) (i : ℕ) :
    jacColF link_lengths joint_angles i =
      (-(fkPoint link_lengths joint_angles joint_angles.length).2
          + (fkPoint link_lengths joint_angles i).2,
       (fkPoint link_lengths joint_angles joint_angles.length).1
          - (fkPoint link_lengths joint_angles i).1) := by
  simp only [jacColF]
  rw [Prod.mk.injEq]
  refine ⟨?_, ?_⟩
  · rw [neg_mul, sin_atan2_mul_sqrt]
    ring
  · rw [cos_atan2_mul_sqrt]


/-! ## Pointwise access to the closed forms -/

theorem fkP_getElem? (link_lengths joint_angles : List ℝ) (i : ℕ)
    (h : i < joint_angles.length + 1) :
    (fkP link_lengths joint_angles)[i]? = some (fkPoint link_lengths joint_angles i) := by
  rw [fkP, List.getElem?_map, List.getElem?_range (by simpa using h)]
  rfl

theorem jacCols_getElem? (link_lengths joint_angles : List ℝ) (i : ℕ)
    (h : i < joint_angles.length) :
    (jacCols link_lengths joint_angles)[i]? = some (jacColF link_lengths joint_angles i) := by
  rw [jacCols, List.getElem?_map, List.getElem?_range h]
  rfl

theorem fkPoint_succ (link_lengths joint_angles : List ℝ) (i : ℕ) :
    fkPoint link_lengths joint_angles (i + 1) =
      ((fkPoint link_lengths joint_angles i).1
         + Real.cos (sumTo joint_angles i) * link_lengths.getD i 0,
       (fkPoint link_lengths joint_angles i).2
         + Real.sin (sumTo joint_angles i) * link_lengths.getD i 0) := by
  simp only [fkPoint, fkFrom, zero_add]

theorem fkPoint_zero (link_lengths joint_angles : List ℝ) :
    fkPoint link_lengths joint_angles 0 = (0, 0) := rfl

/-! ## Claim C2: forward kinematics -/

/-- C2: for equal-length link_lengths and joint_angles of length N at least
1, forward_kinematics returns N+1 points; the first is the origin and point
i+1 equals point i plus (link_lengths[i] cos(theta_sum_i),
link_lengths[i] sin(theta_sum_i)) with theta_sum_i the sum of
joint_angles[0..i]. -/
theorem forward_kinematics_spec (link_lengths joint_angles : List ℝ)
    (hlen : link_lengths.length = joint_angles.length) (hN : 1 ≤ joint_angles.length) :
    ∃ ps, forward_kinematics link_lengths joint_angles = some ps ∧
      ps.length = joint_angles.length + 1 ∧
      ps[0]? = some (0, 0) ∧
      ∀ i, i < joint_angles.length →
        ∃ p, ps[i]? = some p ∧
          ps[i + 1]? = some
            (p.1 + link_lengths.getD i 0 * Real.cos (sumTo joint_angles i),
             p.2 + link_lengths.getD i 0 * Real.sin (sumTo joint_angles i)) := by
  refine ⟨fkP link_lengths joint_angles, forward_kinematics_eq_of_le (by omega), ?_, ?_, ?_⟩
  · simp [fkP]
  · rw [fkP_getElem? link_lengths joint_angles 0 (by omega)]
    rfl
  · intro i hi
    refine ⟨fkPoint link_lengths joint_angles i, fkP_getElem? _ _ i (by omega), ?_⟩
    rw [fkP_getElem? _ _ (i + 1) (by omega), fkPoint_succ]
    rw [Option.some.injEq, Prod.mk.injEq]
    constructor <;> ring

/-- Witness for C2 at a one-link arm. -/
theorem forward_kinematics_spec_witness :
    ([(1 : ℝ)]).length = ([(0 : ℝ)]).length ∧
    1 ≤ ([(0 : ℝ)]).length ∧
    (∃ ps, forward_kinematics [(1 : ℝ)] [(0 : ℝ)] = some ps ∧
      ps.length = ([(0 : ℝ)]).length + 1 ∧
      ps[0]? = some (0, 0) ∧
      ∀ i, i < ([(0 : ℝ)]).length →
        ∃ p, ps[i]? = some p ∧
          ps[i + 1]? = some
            (p.1 + ([(1 : ℝ)]).getD i 0 * Real.cos (sumTo [(0 : ℝ)] i),
             p.2 + ([(1 : ℝ)]).getD i 0 * Real.sin (sumTo [(0 : ℝ)] i))) :=
  ⟨rfl, by decide, forward_kinematics_spec [1] [0] rfl (by decide)⟩

/-! ## Claim C3: jacobian -/

/-- C3: for equal-length inputs of length N at least 1, jacobian returns N
columns; column i is (-sin(phi_i) norm(r_i), cos(phi_i) norm(r_i)) for
r_i the vector from joint i to the end effector and phi_i = atan2 of r_i,
and this equals (-(r_i).y, (r_i).x). -/
theorem jacobian_spec (link_lengths joint_angles : List ℝ)
    (hlen : link_lengths.length = joint_angles.length) (hN : 1 ≤ joint_angles.length) :
    ∃ cols, jacobian link_lengths joint_angles = some cols ∧
      cols.length = joint_angles.length ∧
      ∀ i, i < joint_angles.length →
        cols[i]? = some (jacColF link_lengths joint_angles i) ∧
        jacColF link_lengths joint_angles i =
          (-Real.sin (atan2
                ((fkPoint link_lengths joint_angles joint_angles.length).2
                  - (fkPoint link_lengths joint_angles i).2)
                ((fkPoint link_lengths joint_angles joint_angles.length).1
                  - (fkPoint link_lengths joint_angles i).1))
             * Real.sqrt (((fkPoint link_lengths joint_angles joint_angles.length).1
                  - (fkPoint link_lengths joint_angles i).1) ^ 2
                + ((fkPoint link_lengths joint_angles joint_angles.length).2
                  - (fkPoint link_lengths joint_angles i).2) ^ 2),
           Real.cos (atan2
                ((fkPoint link_lengths joint_angles joint_angles.length).2
                  - (fkPoint link_lengths joint_angles i).2)
                ((fkPoint link_lengths joint_angles joint_angles.length).1
                  - (fkPoint link_lengths joint_angles i).1))
             * Real.sqrt (((fkPoint link_lengths joint_angles joint_angles.length).1
                  - (fkPoint link_lengths joint_angles i).1) ^ 2
                + ((fkPoint link_lengths joint_angles joint_angles.length).2
                  - (fkPoint link_lengths joint_angles i).2) ^ 2)) ∧
        jacColF link_lengths joint_angles i =
          (-((fkPoint link_lengths joint_angles joint_angles.length).2
              - (fkPoint link_lengths joint_angles i).2),
           (fkPoint link_lengths joint_angles joint_angles.length).1
              - (fkPoint link_lengths joint_angles i).1) := by
  refine ⟨jacCols link_lengths joint_angles, jacobian_eq_of_le (by omega), by simp [jacCols], ?_⟩
  intro i hi
  refine ⟨jacCols_getElem? _ _ i hi, rfl, ?_⟩
  rw [jacColF_eq_perp]
  rw [Prod.mk.injEq]
  constructor <;> ring

/-- Witness for C3 at a one-link arm. -/
theorem jacobian_spec_witness :
    ([(1 : ℝ)]).length = ([(0 : ℝ)]).length ∧
    1 ≤ ([(0 : ℝ)]).length ∧
    (∃ cols, jacobian [(1 : ℝ)] [(0 : ℝ)] = some cols ∧
      cols.length = ([(0 : ℝ)]).length ∧
      ∀ i, i < ([(0 : ℝ)]).length →
        cols[i]? = some (jacColF [(1 : ℝ)] [(0 : ℝ)] i) ∧
        jacColF [(1 : ℝ)] [(0 : ℝ)] i =
          (-Real.sin (atan2
                ((fkPoint [(1 : ℝ)] [(0 : ℝ)] ([(0 : ℝ)]).length).2
                  - (fkPoint [(1 : ℝ)] [(0 : ℝ)] i).2)
                ((fkPoint [(1 : ℝ)] [(0 : ℝ)] ([(0 : ℝ)]).length).1
                  - (fkPoint [(1 : ℝ)] [(0 : ℝ)] i).1))
             * Real.sqrt (((fkPoint [(1 : ℝ)] [(0 : ℝ)] ([(0 : ℝ)]).length).1
                  - (fkPoint [(1 : ℝ)] [(0 : ℝ)] i).1) ^ 2
                + ((fkPoint [(1 : ℝ)] [(0 : ℝ)] ([(0 : ℝ)]).length).2
                  - (fkPoint [(1 : ℝ)] [(0 : ℝ)] i).2) ^ 2),
           Real.cos (atan2
                ((fkPoint [(1 : ℝ)] [(0 : ℝ)] ([(0 : ℝ)]).length).2
                  - (fkPoint [(1 : ℝ)] [(0 : ℝ)] i).2)
                ((fkPoint [(1 : ℝ)] [(0 : ℝ)] ([(0 : ℝ)]).length).1
                  - (fkPoint [(1 : ℝ)] [(0 : ℝ)] i).1))
             * Real.sqrt (((fkPoint [(1 : ℝ)] [(0 : ℝ)] ([(0 : ℝ)]).length).1
                  - (fkPoint [(1 : ℝ)] [(0 : ℝ)] i).1) ^ 2
                + ((fkPoint [(1 : ℝ)] [(0 : ℝ)] ([(0 : ℝ)]).length).2
                  - (fkPoint [(1 : ℝ)] [(0 : ℝ)] i).2) ^ 2)) ∧
        jacColF [(1 : ℝ)] [(0 : ℝ)] i =
          (-((fkPoint [(1 : ℝ)] [(0 : ℝ)] ([(0 : ℝ)]).length).2
              - (fkPoint [(1 : ℝ)] [(0 : ℝ)] i).2),
           (fkPoint [(1 : ℝ)] [(0 : ℝ)] ([(0 : ℝ)]).length).1
              - (fkPoint [(1 : ℝ)] [(0 : ℝ)] i).1)) :=
  ⟨rfl, by decide, jacobian_spec [1] [0] rfl (by decide)⟩

/-! ## Claim C7: no eager dimension check in forward_kinematics -/

/-- C7 counterexample: the inputs have different lengths, yet
forward_kinematics raises no error and returns a result (the extra link
length is silently ignored). -/
theorem forward_kinematics_mismatch_counterexample :
    ([(1 : ℝ), 1]).length ≠ ([(0 : ℝ)]).length ∧
    forward_kinematics [(1 : ℝ), 1] [(0 : ℝ)] = some [(0, 0), (1, 0)] := by
  constructor
  · decide
  · rw [forward_kinematics_eq_of_le (by decide)]
    rw [Option.some.injEq]
    show [(0, 0), fkPoint [(1 : ℝ), 1] [(0 : ℝ)] 1] = [(0, 0), (1, 0)]
    rw [fkPoint_succ, fkPoint_zero]
    norm_num [sumTo]

/-- C7 amended: forward_kinematics performs no eager length check.  When
joint_angles is no longer than link_lengths it succeeds, using only the
first joint_angles.length link lengths; only when joint_angles is strictly
longer does it fail, with an index error raised mid-computation rather than
an eager DimensionMismatch. -/
theorem forward_kinematics_length_check (link_lengths joint_angles : List ℝ) :
    forward_kinematics link_lengths joint_angles =
      if joint_angles.length ≤ link_lengths.length then
        some (fkP link_lengths joint_angles)
      else none := by
  by_cases h : joint_angles.length ≤ link_lengths.length
  · rw [if_pos h]
    exact forward_kinematics_eq_of_le h
  · rw [if_neg h]
    exact forward_kinematics_none_of_lt (by omega)

/-! ## Claim C4: inverse kinematics control flow -/

theorem ikIter_shift (pinv : List (ℝ × ℝ) → List (ℝ × ℝ)) (link_lengths : List ℝ)
    (target : ℝ × ℝ) (joint_angles : List ℝ) (k : ℕ) :
    ikIter pinv link_lengths target joint_angles (k + 1) =
      ikIter pinv link_lengths target (ikStep pinv link_lengths joint_angles target) k := by
  induction k with
  | zero => rfl
  | succ j ih =>
    show ikStep pinv link_lengths (ikIter pinv link_lengths target joint_angles (j + 1)) target
      = _
    rw [ih]
    rfl

theorem ikLoop_characterization (pinv : List (ℝ × ℝ) → List (ℝ × ℝ)) (link_lengths : List ℝ)
    (target : ℝ × ℝ) :
    ∀ (m : ℕ) (joint_angles : List ℝ),
      ((∀ k, k < m →
          ¬ ikDist link_lengths (ikIter pinv link_lengths target joint_angles k) target < 0.01) ∧
        ikLoop pinv link_lengths target joint_angles m =
          (ikIter pinv link_lengths target joint_angles m, false)) ∨
      (∃ k, k < m ∧
        ikDist link_lengths (ikIter pinv link_lengths target joint_angles k) target < 0.01 ∧
        (∀ j, j < k →
          ¬ ikDist link_lengths (ikIter pinv link_lengths target joint_angles j) target < 0.01) ∧
        ikLoop pinv link_lengths target joint_angles m =
          (ikIter pinv link_lengths target joint_angles k, true)) := by
  intro m
  induction m with
  | zero =>
    intro joint_angles
    left
    exact ⟨fun k hk => absurd hk (by omega), rfl⟩
  | succ n ih =>
    intro joint_angles
    by_cases h : ikDist link_lengths joint_angles target < 0.01
    · right
      exact ⟨0, by omega, h, fun j hj => absurd hj (by omega), by rw [ikLoop, if_pos h]; rfl⟩
    · have hstep := ih (ikStep pinv link_lengths joint_angles target)
      have hloop : ikLoop pinv link_lengths target joint_angles (n + 1) =
          ikLoop pinv link_lengths target (ikStep pinv link_lengths joint_angles target) n := by
        rw [ikLoop, if_neg h]
      rcases hstep with ⟨hall, heq⟩ | ⟨k, hk, hc, hmin, heq⟩
      · left
        constructor
        · intro k hk
          cases k with
          | zero => exact h
          | succ j =>
            rw [ikIter_shift]
            exact hall j (by omega)
        · rw [hloop, heq, ikIter_shift]
      · right
        refine ⟨k + 1, by omega, ?_, ?_, ?_⟩
        · rw [ikIter_shift]
          exact hc
        · intro j hj
          cases j with
          | zero => exact h
          | succ j2 =>
            rw [ikIter_shift]
            exact hmin j2 (by omega)
        · rw [hloop, heq, ikIter_shift]

/-- C4: inverse_kinematics always returns a result.  If the end-effector
distance to the target drops below the 0.01 tolerance at some iterate
checked within max_iteration iterations, it returns the first such iterate
with converged = true; otherwise it returns the angles after exactly
max_iteration damped Gauss-Newton steps with converged = false.  The
pseudo-inverse routine is an arbitrary external parameter. -/
theorem inverse_kinematics_spec (pinv : List (ℝ × ℝ) → List (ℝ × ℝ))
    (link_lengths joint_angles : List ℝ) (target : ℝ × ℝ) (max_iteration : ℕ) :
    ((∀ k, k < max_iteration →
        ¬ ikDist link_lengths (ikIter pinv link_lengths target joint_angles k) target < 0.01) ∧
      inverse_kinematics pinv link_lengths joint_angles target max_iteration =
        (ikIter pinv link_lengths target joint_angles max_iteration, false)) ∨
    (∃ k, k < max_iteration ∧
      ikDist link_lengths (ikIter pinv link_lengths target joint_angles k) target < 0.01 ∧
      (∀ j, j < k →
        ¬ ikDist link_lengths (ikIter pinv link_lengths target joint_angles j) target < 0.01) ∧
      inverse_kinematics pinv link_lengths joint_angles target max_iteration =
        (ikIter pinv link_lengths target joint_angles k, true)) :=
  ikLoop_characterization pinv link_lengths target max_iteration joint_angles

/-! ## Claim C10: the caller tensor is never written -/

theorem TStore.alloc_vals_lt (s : TStore) (v : List ℝ) (i : ℕ) (h : i < s.next) :
    ((s.alloc v).1).vals i = s.vals i := by
  show (if i = s.next then v else s.vals i) = s.vals i
  rw [if_neg (by omega)]

theorem ikLoopS_vals (pinv : List (ℝ × ℝ) → List (ℝ × ℝ)) (link_lengths : List ℝ)
    (target : ℝ × ℝ) (i : ℕ) :
    ∀ (m : ℕ) (cur : ℕ) (s : TStore), i < s.next →
      ((ikLoopS pinv link_lengths target cur m s).1).vals i = s.vals i := by
  intro m
  induction m with
  | zero => intro cur s _; rfl
  | succ n ih =>
    intro cur s h
    rw [ikLoopS]
    by_cases hc : ikDist link_lengths (s.vals cur) target < 0.01
    · rw [if_pos hc]
    · rw [if_neg hc]
      have h2 : i < ((s.alloc (ikStep pinv link_lengths (s.vals cur) target)).1).next := by
        show i < s.next + 1
        omega
      rw [ih _ _ h2]
      exact TStore.alloc_vals_lt s _ i h

/-- C10: inverse_kinematics leaves the tensor passed as joint_angles
unchanged: the iteration works on a clone, every update allocates a fresh
tensor, and after the call the input id still holds its original value. -/
theorem inverse_kinematicsS_frame (pinv : List (ℝ × ℝ) → List (ℝ × ℝ))
    (link_lengths : List ℝ) (joint_angles_ref : ℕ) (target : ℝ × ℝ) (max_iteration : ℕ)
    (s : TStore) (h : joint_angles_ref < s.next) :
    ((inverse_kinematicsS pinv link_lengths joint_angles_ref target max_iteration s).1).vals
        joint_angles_ref = s.vals joint_angles_ref := by
  show ((ikLoopS pinv link_lengths target (s.alloc (s.vals joint_angles_ref)).2 max_iteration
      (s.alloc (s.vals joint_angles_ref)).1).1).vals joint_angles_ref = _
  rw [ikLoopS_vals pinv link_lengths target joint_angles_ref max_iteration _ _
    (by show joint_angles_ref < s.next + 1; omega)]
  exact TStore.alloc_vals_lt s _ _ h

/-- Witness for C10 at a concrete one-tensor store. -/
theorem inverse_kinematicsS_frame_witness :
    0 < (⟨fun _ => [0], 1⟩ : TStore).next ∧
    ((inverse_kinematicsS (fun _ => []) [1] 0 (0, 0) 2 ⟨fun _ => [0], 1⟩).1).vals 0 = [0] := by
  refine ⟨by decide, ?_⟩
  rw [inverse_kinematicsS_frame (fun _ => []) [1] 0 (0, 0) 2 ⟨fun _ => [0], 1⟩ (by decide)]

/-! ## Resampler lemmas -/

theorem linspace01_length (n : ℕ) : (linspace01 n).length = n := by
  rw [linspace01, List.length_map, List.length_range]

theorem linspace01_getD (n i : ℕ) (h : i < n) :
    (linspace01 n).getD i 0 = (i : ℝ) / ((n : ℝ) - 1) := by
  rw [linspace01, getD_range_map _ n i 0 h]

theorem searchsorted_linspace_zero (M : ℕ) (hM : 2 ≤ M) :
    searchsorted (linspace01 M) 0 = 0 := by
  have hden : (0 : ℝ) ≤ (M : ℝ) - 1 := by
    have : (2 : ℝ) ≤ (M : ℝ) := by exact_mod_cast hM
    linarith
  rw [searchsorted, List.filter_eq_nil_iff.mpr, List.length_nil]
  intro a ha
  rw [linspace01] at ha
  obtain ⟨i, _, rfl⟩ := List.mem_map.mp ha
  simp only [decide_eq_true_eq]
  push_neg
  exact div_nonneg (Nat.cast_nonneg i) hden

theorem searchsorted_linspace_one (M : ℕ) (hM : 2 ≤ M) :
    searchsorted (linspace01 M) 1 = M - 1 := by
  obtain ⟨k, rfl⟩ : ∃ k, M = k + 1 := ⟨M - 1, by omega⟩
  have hk1 : 1 ≤ k := by omega
  have hk0 : (0 : ℝ) < (k : ℝ) := by
    have : (1 : ℝ) ≤ (k : ℝ) := by exact_mod_cast hk1
    linarith
  have hden : ((k + 1 : ℕ) : ℝ) - 1 = (k : ℝ) := by push_cast; ring
  rw [searchsorted, linspace01, List.range_succ, List.map_append, List.filter_append]
  have hpart1 : List.filter (fun x => decide (x < 1))
      ((List.range k).map (fun (i : ℕ) => (i : ℝ) / (((k + 1 : ℕ) : ℝ) - 1))) =
      (List.range k).map (fun (i : ℕ) => (i : ℝ) / (((k + 1 : ℕ) : ℝ) - 1)) := by
    rw [List.filter_eq_self]
    intro a ha
    obtain ⟨i, hi, rfl⟩ := List.mem_map.mp ha
    rw [List.mem_range] at hi
    simp only [decide_eq_true_eq, hden]
    rw [div_lt_one hk0]
    exact_mod_cast hi
  have hpart2 : List.filter (fun x => decide (x < 1))
      (List.map (fun (i : ℕ) => (i : ℝ) / (((k + 1 : ℕ) : ℝ) - 1)) [k]) = [] := by
    rw [List.filter_eq_nil_iff]
    intro a ha
    simp only [List.map_cons, List.map_nil, List.mem_singleton] at ha
    subst ha
    simp only [decide_eq_true_eq, hden]
    rw [div_self (ne_of_gt hk0)]
    exact lt_irrefl 1
  rw [hpart1, hpart2, List.length_append, List.length_nil, List.length_map,
    List.length_range]
  omega

theorem interpAt_linspace_zero (M : ℕ) (hM : 2 ≤ M) (ys : List ℝ) :
    interpAt (linspace01 M) ys 0 = ys.getD 0 0 := by
  rw [interpAt]
  simp only [searchsorted_linspace_zero M hM, linspace01_length]
  have hidx : min (max 0 1) (M - 1) = 1 := by omega
  rw [hidx]
  have hx0 : (linspace01 M).getD (1 - 1) 0 = 0 := by
    rw [linspace01_getD M 0 (by omega)]
    simp
  rw [hx0]
  ring_nf

theorem interpAt_linspace_one (M : ℕ) (hM : 2 ≤ M) (ys : List ℝ) :
    interpAt (linspace01 M) ys 1 = ys.getD (M - 1) 0 := by
  have h2 : (2 : ℝ) ≤ (M : ℝ) := by exact_mod_cast hM
  rw [interpAt]
  simp only [searchsorted_linspace_one M hM, linspace01_length]
  have hidx : min (max (M - 1) 1) (M - 1) = M - 1 := by omega
  rw [hidx]
  have hxhi : (linspace01 M).getD (M - 1) 0 = 1 := by
    rw [linspace01_getD M (M - 1) (by omega)]
    have hcast : ((M - 1 : ℕ) : ℝ) = (M : ℝ) - 1 := by
      push_cast [Nat.cast_sub (by omega : 1 ≤ M)]
      ring
    rw [hcast]
    exact div_self (by linarith)
  have hxlo : (linspace01 M).getD (M - 1 - 1) 0 = ((M : ℝ) - 2) / ((M : ℝ) - 1) := by
    rw [linspace01_getD M (M - 1 - 1) (by omega)]
    congr 1
    rw [show M - 1 - 1 = M - 2 from by omega]
    push_cast [Nat.cast_sub (by omega : 2 ≤ M)]
    ring
  rw [hxhi, hxlo]
  have hlo_lt : ((M : ℝ) - 2) / ((M : ℝ) - 1) < 1 := by
    rw [div_lt_one (by linarith)]
    linarith
  have hne : 1 - ((M : ℝ) - 2) / ((M : ℝ) - 1) ≠ 0 := by
    intro hzero
    have : ((M : ℝ) - 2) / ((M : ℝ) - 1) = 1 := by linarith
    linarith
  rw [div_mul_cancel₀ _ hne]
  ring

/-! ## Claim C8: resampler degenerate-input error -/

/-- C8: resample_trajectory fails with the invalid-trajectory error exactly
when the trajectory has at most one sample point, for every requested
num_points; with two or more points it never raises that error. -/
theorem resample_trajectory_error_iff (trajectory : List (List ℝ)) (num_points : ℕ) :
    resample_trajectory trajectory num_points =
        Except.error "Trajectory must have more than one point." ↔
      size1 trajectory ≤ 1 := by
  unfold resample_trajectory
  by_cases h : size1 trajectory ≤ 1
  · rw [if_pos h]
    simpa using h
  · rw [if_neg h]
    constructor
    · intro hcontra
      exact absurd hcontra (by simp)
    · intro hcontra
      exact absurd hcontra h

/-! ## Claim C9: resampling preserves the endpoints -/

/-- C9: for a D x M trajectory with M at least 2 and num_points at least 2,
resample_trajectory returns a D x num_points trajectory whose first column
is exactly the input first column and whose last column is exactly the
input last column. -/
theorem resample_trajectory_endpoints (trajectory : List (List ℝ)) (num_points : ℕ)
    (hrow : ∀ row ∈ trajectory, row.length = size1 trajectory)
    (hM : 2 ≤ size1 trajectory) (hn : 2 ≤ num_points) :
    ∃ out, resample_trajectory trajectory num_points = Except.ok out ∧
      out.length = trajectory.length ∧
      (∀ row ∈ out, row.length = num_points) ∧
      ∀ k, k < trajectory.length →
        (out.getD k []).getD 0 0 = (trajectory.getD k []).getD 0 0 ∧
        (out.getD k []).getD (num_points - 1) 0 =
          (trajectory.getD k []).getD (size1 trajectory - 1) 0 := by
  refine ⟨trajectory.map (fun row =>
      (linspace01 num_points).map (fun t => interpAt (linspace01 (size1 trajectory)) row t)),
    ?_, by simp, ?_, ?_⟩
  · rw [resample_trajectory, if_neg (by omega)]
  · intro row hrw
    obtain ⟨r0, _, rfl⟩ := List.mem_map.mp hrw
    rw [List.length_map, linspace01_length]
  · intro k hk
    rw [getD_map_of_lt _ trajectory k [] [] hk]
    constructor
    · rw [getD_map_of_lt _ (linspace01 num_points) 0 0 0 (by rw [linspace01_length]; omega)]
      rw [linspace01_getD num_points 0 (by omega)]
      rw [show ((0 : ℕ) : ℝ) / ((num_points : ℝ) - 1) = 0 by simp]
      exact interpAt_linspace_zero (size1 trajectory) hM (trajectory.getD k [])
    · rw [getD_map_of_lt _ (linspace01 num_points) (num_points - 1) 0 0
        (by simp [linspace01]; omega)]
      rw [linspace01_getD num_points (num_points - 1) (by omega)]
      have hcast : ((num_points - 1 : ℕ) : ℝ) / ((num_points : ℝ) - 1) = 1 := by
        have h2 : (2 : ℝ) ≤ (num_points : ℝ) := by exact_mod_cast hn
        rw [Nat.cast_sub (by omega : 1 ≤ num_points)]
        push_cast
        exact div_self (by linarith)
      rw [hcast]
      exact interpAt_linspace_one (size1 trajectory) hM (trajectory.getD k [])

/-- Witness for C9 at a concrete 2 x 2 trajectory resampled to 3 points. -/
theorem resample_trajectory_endpoints_witness :
    (∀ row ∈ [[(0 : ℝ), 1], [(2 : ℝ), 3]], row.length = size1 [[(0 : ℝ), 1], [(2 : ℝ), 3]]) ∧
    2 ≤ size1 [[(0 : ℝ), 1], [(2 : ℝ), 3]] ∧
    2 ≤ 3 ∧
    (∃ out, resample_trajectory [[(0 : ℝ), 1], [(2 : ℝ), 3]] 3 = Except.ok out ∧
      out.length = ([[(0 : ℝ), 1], [(2 : ℝ), 3]]).length ∧
      (∀ row ∈ out, row.length = 3) ∧
      ∀ k, k < ([[(0 : ℝ), 1], [(2 : ℝ), 3]]).length →
        (out.getD k []).getD 0 0 = (([[(0 : ℝ), 1], [(2 : ℝ), 3]]).getD k []).getD 0 0 ∧
        (out.getD k []).getD (3 - 1) 0 =
          (([[(0 : ℝ), 1], [(2 : ℝ), 3]]).getD k []).getD
            (size1 [[(0 : ℝ), 1], [(2 : ℝ), 3]] - 1) 0) := by
  have hrow : ∀ row ∈ [[(0 : ℝ), 1], [(2 : ℝ), 3]],
      row.length = size1 [[(0 : ℝ), 1], [(2 : ℝ), 3]] := by
    intro row hr
    simp only [List.mem_cons, List.not_mem_nil, or_false] at hr
    rcases hr with rfl | rfl <;> rfl
  exact ⟨hrow, by decide, by decide,
    resample_trajectory_endpoints [[(0 : ℝ), 1], [(2 : ℝ), 3]] 3 hrow (by decide) (by decide)⟩

/-! ## Collision evaluator lemmas -/

theorem instRow_length (sdfQ : SDFParams → ℝ × ℝ → ℝ × (ℝ × ℝ)) (c : CollisionArm) (k : ℕ) :
    (instRow sdfQ c k).length = (c.pose.getD k []).length := by
  simp [instRow, instDat, jacCols]

theorem cdjLoop_eq (c : CollisionArm) :
    ∀ (b i : ℕ), (∀ k, i ≤ k → k < i + b → instOK c k) →
      cdjLoop c i b = some ((List.range b).map (fun j => instDat c (i + j))) := by
  intro b
  induction b with
  | zero => intro i _; rfl
  | succ n ih =>
    intro i h
    obtain ⟨li, th, hli, hth, hlen⟩ := h i (le_refl i) (by omega)
    have hrest := ih (i + 1) (fun k hk1 hk2 => h k (by omega) (by omega))
    rw [cdjLoop]
    simp only [hli, hth, forward_kinematics_eq_of_le hlen, jacobian_eq_of_le hlen, hrest,
      Option.bind_eq_bind, Option.some_bind]
    rw [Option.some.injEq, List.range_succ_eq_map, List.map_cons, List.map_map]
    have hgetL : c.link_lengths.getD i [] = li := getD_of_getElem?_some [] hli
    have hgetP : c.pose.getD i [] = th := getD_of_getElem?_some [] hth
    congr 1
    · rw [fkP_getLastD]
      show _ = instDat c (i + 0)
      rw [instDat]
      simp only [Nat.add_zero, hgetL, hgetP]
    · apply List.map_congr_left
      intro j _
      show instDat c (i + 1 + j) = instDat c (i + (j + 1))
      rw [show i + 1 + j = i + (j + 1) by omega]

theorem compute_distances_and_jacobians_eq (sdfQ : SDFParams → ℝ × ℝ → ℝ × (ℝ × ℝ))
    (c : CollisionArm) (hok : ∀ k, k < c.sdf_origin.length → instOK c k) :
    compute_distances_and_jacobians sdfQ c =
      some ((List.range c.sdf_origin.length).map
        (fun k => (instDist sdfQ c k, instRow sdfQ c k))) := by
  rw [compute_distances_and_jacobians,
    cdjLoop_eq c c.sdf_origin.length 0 (fun k hk1 hk2 => hok k (by omega))]
  simp only [Option.map, List.map_map]
  rw [Option.some.injEq]
  apply List.map_congr_left
  intro k _
  show (fun pj => ((sdfQ c.sdf ((pj : (ℝ × ℝ) × List (ℝ × ℝ)).1)).1,
      pj.2.map (fun col => (sdfQ c.sdf pj.1).2.1 * col.1 + (sdfQ c.sdf pj.1).2.2 * col.2)))
      (instDat c (0 + k)) = (instDist sdfQ c k, instRow sdfQ c k)
  rw [show 0 + k = k by omega]
  rfl

/-! ## Claim C5: the collision cost -/

/-- C5: for every well-formed batch, the per-instance collision cost is
max(cost_eps - distance, 0) at the SDF distance of the instance end
effector; it is exactly zero when the distance is at least cost_eps and
strictly positive when the distance is below cost_eps. -/
theorem collision_error_spec (sdfQ : SDFParams → ℝ × ℝ → ℝ × (ℝ × ℝ)) (c : CollisionArm)
    (hok : ∀ k, k < c.sdf_origin.length → instOK c k)
    (heps : c.cost_eps.length = c.sdf_origin.length) :
    ∃ errs, CollisionArm.error sdfQ c = some errs ∧
      errs.length = c.sdf_origin.length ∧
      ∀ k, k < c.sdf_origin.length →
        errs[k]? = some (max (c.cost_eps.getD k 0 - instDist sdfQ c k) 0) ∧
        (c.cost_eps.getD k 0 ≤ instDist sdfQ c k → errs[k]? = some 0) ∧
        (instDist sdfQ c k < c.cost_eps.getD k 0 → ∃ e, errs[k]? = some e ∧ 0 < e) := by
  refine ⟨error_from_distances c.cost_eps
      ((List.range c.sdf_origin.length).map (fun k => instDist sdfQ c k)), ?_, ?_, ?_⟩
  · rw [CollisionArm.error, compute_distances_and_jacobians_eq sdfQ c hok]
    simp only [Option.map, List.map_map]
    rfl
  · rw [error_from_distances, List.length_zipWith, List.length_map, List.length_range, heps]
    omega
  · intro k hk
    have hmap : ((List.range c.sdf_origin.length).map
        (fun k => instDist sdfQ c k)).getD k 0 = instDist sdfQ c k :=
      getD_range_map _ _ k 0 hk
    have hget : (error_from_distances c.cost_eps
        ((List.range c.sdf_origin.length).map (fun k => instDist sdfQ c k)))[k]? =
        some (max (c.cost_eps.getD k 0 - instDist sdfQ c k) 0) := by
      rw [error_from_distances,
        getElem?_zipWith_of_lt _ c.cost_eps _ k 0 0 (by omega)
          (by rw [List.length_map, List.length_range]; omega),
        hmap]
    refine ⟨hget, ?_, ?_⟩
    · intro hfar
      rw [hget, Option.some.injEq]
      exact max_eq_right (by linarith)
    · intro hnear
      refine ⟨max (c.cost_eps.getD k 0 - instDist sdfQ c k) 0, hget, ?_⟩
      exact lt_max_iff.mpr (Or.inl (by linarith))

/-- Witness for C5 at a one-instance batch with a constant SDF query. -/
theorem collision_error_spec_witness :
    (∀ k, k < (CollisionArm.init [[(0 : ℝ)]] [[(1 : ℝ)]] [((0 : ℝ), (0 : ℝ))] [] 1
        [(1 : ℝ)]).sdf_origin.length →
      instOK (CollisionArm.init [[(0 : ℝ)]] [[(1 : ℝ)]] [((0 : ℝ), (0 : ℝ))] [] 1 [(1 : ℝ)]) k) ∧
    (∃ errs, CollisionArm.error (fun _ _ => (0, (1, 2)))
        (CollisionArm.init [[(0 : ℝ)]] [[(1 : ℝ)]] [((0 : ℝ), (0 : ℝ))] [] 1 [(1 : ℝ)]) =
          some errs ∧
      errs.length = (CollisionArm.init [[(0 : ℝ)]] [[(1 : ℝ)]] [((0 : ℝ), (0 : ℝ))] [] 1
        [(1 : ℝ)]).sdf_origin.length ∧
      ∀ k, k < (CollisionArm.init [[(0 : ℝ)]] [[(1 : ℝ)]] [((0 : ℝ), (0 : ℝ))] [] 1
          [(1 : ℝ)]).sdf_origin.length →
        errs[k]? = some (max ((CollisionArm.init [[(0 : ℝ)]] [[(1 : ℝ)]] [((0 : ℝ), (0 : ℝ))]
            [] 1 [(1 : ℝ)]).cost_eps.getD k 0 -
          instDist (fun _ _ => (0, (1, 2)))
            (CollisionArm.init [[(0 : ℝ)]] [[(1 : ℝ)]] [((0 : ℝ), (0 : ℝ))] [] 1 [(1 : ℝ)]) k) 0) ∧
        ((CollisionArm.init [[(0 : ℝ)]] [[(1 : ℝ)]] [((0 : ℝ), (0 : ℝ))] [] 1
            [(1 : ℝ)]).cost_eps.getD k 0 ≤
          instDist (fun _ _ => (0, (1, 2)))
            (CollisionArm.init [[(0 : ℝ)]] [[(1 : ℝ)]] [((0 : ℝ), (0 : ℝ))] [] 1 [(1 : ℝ)]) k →
          errs[k]? = some 0) ∧
        (instDist (fun _ _ => (0, (1, 2)))
            (CollisionArm.init [[(0 : ℝ)]] [[(1 : ℝ)]] [((0 : ℝ), (0 : ℝ))] [] 1 [(1 : ℝ)]) k <
          (CollisionArm.init [[(0 : ℝ)]] [[(1 : ℝ)]] [((0 : ℝ), (0 : ℝ))] [] 1
            [(1 : ℝ)]).cost_eps.getD k 0 →
          ∃ e, errs[k]? = some e ∧ 0 < e)) := by
  have hok : ∀ k, k < (CollisionArm.init [[(0 : ℝ)]] [[(1 : ℝ)]] [((0 : ℝ), (0 : ℝ))] [] 1
      [(1 : ℝ)]).sdf_origin.length →
      instOK (CollisionArm.init [[(0 : ℝ)]] [[(1 : ℝ)]] [((0 : ℝ), (0 : ℝ))] [] 1 [(1 : ℝ)]) k := by
    intro k hk
    have hk1 : k < 1 := hk
    have hk0 : k = 0 := by omega
    subst hk0
    exact ⟨[1], [0], rfl, rfl, by decide⟩
  exact ⟨hok, collision_error_spec (fun _ _ => (0, (1, 2)))
    (CollisionArm.init [[(0 : ℝ)]] [[(1 : ℝ)]] [((0 : ℝ), (0 : ℝ))] [] 1 [(1 : ℝ)]) hok rfl⟩

/-! ## Claim C1: the collision cost jacobian -/

/-- C1: for every well-formed batch, the returned cost-jacobian row of an
instance is the negated chain-rule product of the SDF gradient row with the
pose jacobian when the SDF distance is at most cost_eps, and is exactly the
zero row when the distance is strictly above cost_eps. -/
theorem collision_jacobians_spec (sdfQ : SDFParams → ℝ × ℝ → ℝ × (ℝ × ℝ)) (c : CollisionArm)
    (hok : ∀ k, k < c.sdf_origin.length → instOK c k)
    (heps : c.cost_eps.length = c.sdf_origin.length) :
    ∃ rows errs, CollisionArm.jacobians sdfQ c = some (rows, errs) ∧
      CollisionArm.error sdfQ c = some errs ∧
      rows.length = c.sdf_origin.length ∧
      ∀ k, k < c.sdf_origin.length →
        (instDist sdfQ c k ≤ c.cost_eps.getD k 0 →
          rows[k]? = some ((instRow sdfQ c k).map (fun x => -x))) ∧
        (c.cost_eps.getD k 0 < instDist sdfQ c k →
          rows[k]? = some (List.replicate (c.pose.getD k []).length 0)) := by
  refine ⟨(List.zipWith
      (fun e dr => if e < (dr : ℝ × List ℝ).1 then dr.2.map (fun _ => (0 : ℝ)) else dr.2)
      c.cost_eps ((List.range c.sdf_origin.length).map
        (fun k => (instDist sdfQ c k, instRow sdfQ c k)))).map
      (fun row => row.map (fun x => -x)),
    error_from_distances c.cost_eps
      ((List.range c.sdf_origin.length).map (fun k => instDist sdfQ c k)), ?_, ?_, ?_, ?_⟩
  · rw [CollisionArm.jacobians, compute_distances_and_jacobians_eq sdfQ c hok]
    simp only [Option.map, List.map_map]
    rfl
  · rw [CollisionArm.error, compute_distances_and_jacobians_eq sdfQ c hok]
    simp only [Option.map, List.map_map]
    rfl
  · rw [List.length_map, List.length_zipWith, List.length_map, List.length_range, heps]
    omega
  · intro k hk
    have hget : ((List.zipWith
        (fun e dr => if e < (dr : ℝ × List ℝ).1 then dr.2.map (fun _ => (0 : ℝ)) else dr.2)
        c.cost_eps ((List.range c.sdf_origin.length).map
          (fun k => (instDist sdfQ c k, instRow sdfQ c k)))).map
        (fun row => row.map (fun x => -x)))[k]? =
        some ((if c.cost_eps.getD k 0 < instDist sdfQ c k then
            (instRow sdfQ c k).map (fun _ => (0 : ℝ))
          else instRow sdfQ c k).map (fun x => -x)) := by
      rw [List.getElem?_map,
        getElem?_zipWith_of_lt _ c.cost_eps _ k 0 (0, []) (by omega)
          (by rw [List.length_map, List.length_range]; omega),
        getD_range_map _ _ k (0, []) hk]
      rfl
    constructor
    · intro hnear
      rw [hget, Option.some.injEq, if_neg (by linarith)]
    · intro hfar
      rw [hget, Option.some.injEq, if_pos hfar, List.map_map]
      have hcomp : ((fun x => -x) ∘ (fun _ : ℝ => (0 : ℝ))) = (fun _ : ℝ => (0 : ℝ)) := by
        funext x
        simp
      rw [hcomp, map_const_eq_replicate, instRow_length]

/-- Witness for C1 at a one-instance batch with a constant SDF query. -/
theorem collision_jacobians_spec_witness :
    (∀ k, k < (CollisionArm.init [[(0 : ℝ)]] [[(1 : ℝ)]] [((0 : ℝ), (0 : ℝ))] [] 1
        [(1 : ℝ)]).sdf_origin.length →
      instOK (CollisionArm.init [[(0 : ℝ)]] [[(1 : ℝ)]] [((0 : ℝ), (0 : ℝ))] [] 1 [(1 : ℝ)]) k) ∧
    (∃ rows errs, CollisionArm.jacobians (fun _ _ => (0, (1, 2)))
        (CollisionArm.init [[(0 : ℝ)]] [[(1 : ℝ)]] [((0 : ℝ), (0 : ℝ))] [] 1 [(1 : ℝ)]) =
          some (rows, errs) ∧
      CollisionArm.error (fun _ _ => (0, (1, 2)))
        (CollisionArm.init [[(0 : ℝ)]] [[(1 : ℝ)]] [((0 : ℝ), (0 : ℝ))] [] 1 [(1 : ℝ)]) =
          some errs ∧
      rows.length = (CollisionArm.init [[(0 : ℝ)]] [[(1 : ℝ)]] [((0 : ℝ), (0 : ℝ))] [] 1
        [(1 : ℝ)]).sdf_origin.length ∧
      ∀ k, k < (CollisionArm.init [[(0 : ℝ)]] [[(1 : ℝ)]] [((0 : ℝ), (0 : ℝ))] [] 1
          [(1 : ℝ)]).sdf_origin.length →
        (instDist (fun _ _ => (0, (1, 2)))
            (CollisionArm.init [[(0 : ℝ)]] [[(1 : ℝ)]] [((0 : ℝ), (0 : ℝ))] [] 1 [(1 : ℝ)]) k ≤
          (CollisionArm.init [[(0 : ℝ)]] [[(1 : ℝ)]] [((0 : ℝ), (0 : ℝ))] [] 1
            [(1 : ℝ)]).cost_eps.getD k 0 →
          rows[k]? = some ((instRow (fun _ _ => (0, (1, 2)))
            (CollisionArm.init [[(0 : ℝ)]] [[(1 : ℝ)]] [((0 : ℝ), (0 : ℝ))] [] 1
              [(1 : ℝ)]) k).map (fun x => -x))) ∧
        ((CollisionArm.init [[(0 : ℝ)]] [[(1 : ℝ)]] [((0 : ℝ), (0 : ℝ))] [] 1
            [(1 : ℝ)]).cost_eps.getD k 0 <
          instDist (fun _ _ => (0, (1, 2)))
            (CollisionArm.init [[(0 : ℝ)]] [[(1 : ℝ)]] [((0 : ℝ), (0 : ℝ))] [] 1 [(1 : ℝ)]) k →
          rows[k]? = some (List.replicate ((CollisionArm.init [[(0 : ℝ)]] [[(1 : ℝ)]]
            [((0 : ℝ), (0 : ℝ))] [] 1 [(1 : ℝ)]).pose.getD k []).length 0))) := by
  have hok : ∀ k, k < (CollisionArm.init [[(0 : ℝ)]] [[(1 : ℝ)]] [((0 : ℝ), (0 : ℝ))] [] 1
      [(1 : ℝ)]).sdf_origin.length →
      instOK (CollisionArm.init [[(0 : ℝ)]] [[(1 : ℝ)]] [((0 : ℝ), (0 : ℝ))] [] 1 [(1 : ℝ)]) k := by
    intro k hk
    have hk1 : k < 1 := hk
    have hk0 : k = 0 := by omega
    subst hk0
    exact ⟨[1], [0], rfl, rfl, by decide⟩
  exact ⟨hok, collision_jacobians_spec (fun _ _ => (0, (1, 2)))
    (CollisionArm.init [[(0 : ℝ)]] [[(1 : ℝ)]] [((0 : ℝ), (0 : ℝ))] [] 1 [(1 : ℝ)]) hok rfl⟩

/-! ## Claim C6: set_aux_var_at re-derives the SDF state -/

/-- C6: after any set_aux_var_at call, the evaluator equals a freshly
constructed evaluator over its current auxiliary variables: the SDF
container always re-derives from the current sdf_origin, sdf_data and
sdf_cell_size, so no cost evaluation can see stale derived state. -/
theorem set_aux_var_at_refreshes_sdf (c : CollisionArm) (index : ℕ) (v : AuxVar) :
    c.set_aux_var_at index v =
      CollisionArm.init (c.set_aux_var_at index v).pose
        (c.set_aux_var_at index v).link_lengths
        (c.set_aux_var_at index v).sdf_origin
        (c.set_aux_var_at index v).sdf_data
        (c.set_aux_var_at index v).sdf_cell_size
        (c.set_aux_var_at index v).cost_eps := rfl
